import Mathlib

/-!
Shallow embedding of the backfill batch sequencer of
`beacon-chain/sync/backfill/batcher.go` and of `MinimumBackfillSlot` of
`beacon-chain/sync/backfill/service.go`.

Slots are `uint64` in the source (`primitives.Slot`); they are embedded as
`Nat` together with explicit wrap-around arithmetic modulo `2 ^ 64` at the
places where `batcher.before` performs `uint64` addition and subtraction.
The batch value type itself lives in `batch.go`, which is not part of the
sources; the fields and methods the sequencer reads are modelled from the
specification (see the individual doc comments).
-/

namespace Backfill

/-- Modulus of the 64-bit unsigned integers that carry `primitives.Slot`. -/
def U64 : Nat := 2 ^ 64

/-- Wrapping `uint64` addition (arguments assumed `< U64`). -/
def add64 (a b : Nat) : Nat := (a + b) % U64

/-- Wrapping `uint64` subtraction (arguments assumed `< U64`). -/
def sub64 (a b : Nat) : Nat := (a + (U64 - b % U64)) % U64

/-- Modelled from the spec: the lifecycle states of a batch, declared in
`batch.go` which is not under the sources.  Spec §3: `state ∈ {Nil, Init,
Sequenced, InFlight, Importable, ImportComplete, ErrRetryable,
EndSequence}`; `nil` is the Go zero value (spec lifecycle: "created Nil"). -/
inductive BatchState
  | nil
  | init
  | sequenced
  | inFlight
  | importable
  | importComplete
  | errRetryable
  | endSequence
  deriving DecidableEq

/-- Modelled from the spec: the batch value record of `batch.go`, which is
not under the sources.  Spec §3: "a half-open descending slot range
`[begin, end)`" plus a lifecycle state.  `end` is a Lean keyword, so the
field is named `endSlot`.  Fields never read by the sequencer code under
the sources (results, peer id, bookkeeping) are omitted. -/
structure Batch where
  begin : Nat
  endSlot : Nat
  state : BatchState
  deriving DecidableEq

/-- Modelled from the spec: `replaces(other)` of `batch.go` (not under the
sources) "returns true iff `begin == other.begin && end == other.end` (the
identity of a batch is its slot range)" (spec §4.B). -/
def Batch.replaces (b other : Batch) : Bool :=
  b.begin == other.begin && b.endSlot == other.endSlot

/-- Modelled from the spec: `withState(s)` of `batch.go` (not under the
sources) returns a new batch with the updated state field (spec §4.B). -/
def Batch.withState (b : Batch) (s : BatchState) : Batch :=
  ⟨b.begin, b.endSlot, s⟩

/-- `type batcher struct { min, max, size primitives.Slot }`
(`batcher.go`). -/
structure Batcher where
  min : Nat
  max : Nat
  size : Nat
  deriving DecidableEq

/-- `batcher.before` (`batcher.go`):

    if upTo <= r.min { return batch{begin: upTo, end: upTo, state: batchEndSequence} }
    begin := r.min
    if upTo > r.size+r.min { begin = upTo - r.size }
    return batch{begin: begin, end: upTo, state: batchInit}

`r.size+r.min` and `upTo - r.size` are `uint64` operations, embedded with
explicit wrap-around. -/
def Batcher.before (r : Batcher) (upTo : Nat) : Batch :=
  if upTo ≤ r.min then ⟨upTo, upTo, BatchState.endSequence⟩
  else if add64 r.size r.min < upTo then ⟨sub64 upTo r.size, upTo, BatchState.init⟩
  else ⟨r.min, upTo, BatchState.init⟩

/-- `batcher.beforeBatch` (`batcher.go`): `return r.before(upTo.begin)`. -/
def Batcher.beforeBatch (r : Batcher) (upTo : Batch) : Batch :=
  r.before upTo.begin

/-- The sequencing errors of `batcher.go` that the embedded operations can
return (`errMaxBatches`, `errCannotDecreaseMinimum`). -/
inductive SeqErr
  | maxBatches
  | cannotDecreaseMinimum
  deriving DecidableEq

/-- `type batchSequencer struct { batcher batcher; seq []batch }`
(`batcher.go`). -/
structure BatchSequencer where
  batcher : Batcher
  seq : List Batch
  deriving DecidableEq

/-- `newBatchSequencer` (`batcher.go`): `make([]batch, seqLen)` fills the
window with Go zero-value batches; the zero value of the state enum is
`batchNil` (spec lifecycle: "created Nil"). -/
def newBatchSequencer (seqLen : Nat) (min max size : Nat) : BatchSequencer :=
  ⟨⟨min, max, size⟩, List.replicate seqLen ⟨0, 0, BatchState.nil⟩⟩

/-- The chain of fresh batches produced by the refill loop at the end of
`batchSequencer.update` (`batcher.go`):

    last := c.seq[len(c.seq)-1]
    for i := len(c.seq) - done; i < len(c.seq); i++ {
      c.seq[i] = c.batcher.beforeBatch(last)
      last = c.seq[i]
    }
-/
def refillChain (r : Batcher) : Batch → Nat → List Batch
  | _, 0 => []
  | last, Nat.succ k =>
    let nb := r.beforeBatch last
    nb :: refillChain r nb k

/-- `batchSequencer.update` (`batcher.go`) on the window list.  The Go
function is one in-place pass followed by a refill loop:

    done := 0
    for i := 0; i < len(c.seq); i++ {
      if b.replaces(c.seq[i]) { c.seq[i] = b }
      if c.seq[i].state == batchImportComplete { done += 1; continue }
      c.seq[i-done] = c.seq[i]
    }
    last := c.seq[len(c.seq)-1]
    for i := len(c.seq) - done; i < len(c.seq); i++ {
      c.seq[i] = c.batcher.beforeBatch(last)
      last = c.seq[i]
    }

In the first loop, every write targets an index `≤` the current one
(`i-done ≤ i`, and the `c.seq[i] = b` write targets `i` itself), so
iteration `i` always reads the original (possibly just replaced) value at
`i`.  The pass therefore replaces every entry whose range equals `b`'s by
`b` and moves the non-`batchImportComplete` entries, in order, to the
front.  The final slot `len-1` is never the target of a move with a
positive `done` offset, so `last` is the (post-replacement) original last
element.  The refill loop then overwrites the trailing `done` slots with a
descending chain of fresh batches started below `last`.  The functional
form below is that decomposition; a Go call with an empty window panics on
`c.seq[len(c.seq)-1]`, so theorems about nonempty behaviour carry a
`0 < length` hypothesis and the `getLastD` default is immaterial. -/
def updateSeq (r : Batcher) (b : Batch) (l : List Batch) : List Batch :=
  let l' := l.map fun e => if b.replaces e then b else e
  let done := l'.countP fun e => e.state == BatchState.importComplete
  let survivors := l'.filter fun e => !(e.state == BatchState.importComplete)
  survivors ++ refillChain r (l'.getLastD ⟨0, 0, BatchState.nil⟩) done

/-- `batchSequencer.update` (`batcher.go`) on the sequencer state. -/
def BatchSequencer.update (c : BatchSequencer) (b : Batch) : BatchSequencer :=
  ⟨c.batcher, updateSeq c.batcher b c.seq⟩

/-- The scan loop of `batchSequencer.sequence` (`batcher.go`), carrying the
previous window entry (`c.seq[i-1]`, already processed) and the output
accumulator `s`.  Go's `break` in the `batchEndSequence` arm exits only the
`switch` statement, not the `for` loop, so the scan continues with the next
entry; the `default: continue` arm likewise just moves on.

    for i := range c.seq {
      switch c.seq[i].state {
      case batchInit, batchErrRetryable:
        c.seq[i] = c.seq[i].withState(batchSequenced)
        s = append(s, c.seq[i])
      case batchNil:
        var b batch
        if i == 0 { b = c.batcher.before(c.batcher.max) } else { b = c.batcher.beforeBatch(c.seq[i-1]) }
        c.seq[i] = b.withState(batchSequenced)
        s = append(s, c.seq[i])
      case batchEndSequence:
        if len(s) == 0 { s = append(s, c.seq[i]) }
        break
      default:
        continue
      }
    }
-/
def seqStep (r : Batcher) : Option Batch → List Batch → List Batch → List Batch × List Batch
  | _, s, [] => ([], s)
  | p, s, e :: rest =>
    match e.state with
    | BatchState.init =>
      let e' := e.withState BatchState.sequenced
      let res := seqStep r (some e') (s ++ [e']) rest
      (e' :: res.1, res.2)
    | BatchState.errRetryable =>
      let e' := e.withState BatchState.sequenced
      let res := seqStep r (some e') (s ++ [e']) rest
      (e' :: res.1, res.2)
    | BatchState.nil =>
      let nb := (match p with
        | none => r.before r.max
        | some pb => r.beforeBatch pb).withState BatchState.sequenced
      let res := seqStep r (some nb) (s ++ [nb]) rest
      (nb :: res.1, res.2)
    | BatchState.endSequence =>
      let s' := if s.isEmpty then s ++ [e] else s
      let res := seqStep r (some e) s' rest
      (e :: res.1, res.2)
    | _ =>
      let res := seqStep r (some e) s rest
      (e :: res.1, res.2)

/-- `batchSequencer.sequence` (`batcher.go`): scans the window as in
`seqStep` (the receiver's window is mutated in place, so the updated window
is part of the result even when the call errors), then

    if len(s) == 0 { return nil, errMaxBatches }
    return s, nil
-/
def BatchSequencer.sequence (c : BatchSequencer) : BatchSequencer × Except SeqErr (List Batch) :=
  let res := seqStep c.batcher none [] c.seq
  (⟨c.batcher, res.1⟩,
    if res.2.isEmpty then Except.error SeqErr.maxBatches else Except.ok res.2)

/-- The loop of `batchSequencer.importable` (`batcher.go`): append while the
state is `batchImportable`, stop at the first entry with any other state.

    for i := range c.seq {
      if c.seq[i].state == batchImportable { imp = append(imp, c.seq[i]); continue }
      break
    }
-/
def importableLoop : List Batch → List Batch
  | [] => []
  | e :: rest =>
    if e.state == BatchState.importable then e :: importableLoop rest else []

/-- `batchSequencer.importable` (`batcher.go`). -/
def BatchSequencer.importable (c : BatchSequencer) : List Batch :=
  importableLoop c.seq

/-- `batchSequencer.moveMinimum` (`batcher.go`):

    if min < c.batcher.min { return errCannotDecreaseMinimum }
    c.batcher.min = min
    return nil

The returned pair is (error, state after the call). -/
def BatchSequencer.moveMinimum (c : BatchSequencer) (min : Nat) : Option SeqErr × BatchSequencer :=
  if min < c.batcher.min then (some SeqErr.cannotDecreaseMinimum, c)
  else (none, ⟨⟨min, c.batcher.max, c.batcher.size⟩, c.seq⟩)

/-- Modelled from the spec: `slots.UnsafeEpochStart` is outside the
sources; spec §4.G uses `offset = E × SLOTS_PER_EPOCH`.  The clamp to
`MaxSafeEpoch` in `MinimumBackfillSlot` keeps the product in range, so the
plain product is the faithful reading. -/
def epochStart (slotsPerEpoch e : Nat) : Nat := e * slotsPerEpoch

/-- `MinimumBackfillSlot` (`service.go`):

    oe := helpers.MinEpochsForBlockRequests()
    if oe > slots.MaxSafeEpoch() { oe = slots.MaxSafeEpoch() }
    offset := slots.UnsafeEpochStart(oe)
    if offset > current { return 0 }
    return current - offset

`helpers.MinEpochsForBlockRequests` and `slots.MaxSafeEpoch` are
configuration values outside the sources and are taken as parameters. -/
def MinimumBackfillSlot (minEpochsForBlockRequests maxSafeEpoch slotsPerEpoch current : Nat) :
    Nat :=
  let oe := if minEpochsForBlockRequests > maxSafeEpoch then maxSafeEpoch
            else minEpochsForBlockRequests
  let offset := epochStart slotsPerEpoch oe
  if offset > current then 0 else current - offset

/-- Invariant B1 of the spec, restricted to what claim C1 states: adjacent
window entries tile descending, `seq[i].begin == seq[i+1].end`. -/
def Tiled (l : List Batch) : Prop :=
  List.Chain' (fun a b => a.begin = b.endSlot) l

instance instDecTiled : ∀ l : List Batch, Decidable (Tiled l)
  | [] => isTrue List.chain'_nil
  | [a] => isTrue (List.chain'_singleton a)
  | a :: b :: t =>
    have : Decidable (Tiled (b :: t)) := instDecTiled (b :: t)
    decidable_of_iff (a.begin = b.endSlot ∧ Tiled (b :: t))
      (by unfold Tiled
          exact (@List.chain'_cons Batch (fun a b => a.begin = b.endSlot) a b t).symm)

/-- The `batchImportComplete` entries of a window form a (possibly empty)
front segment, followed only by entries in other states.  This is the
"batches complete and update is called in order" assumption written as a
comment inside `batchSequencer.update`. -/
def CompletesFirst (l : List Batch) : Prop :=
  ∃ pre post, l = pre ++ post ∧
    (∀ e ∈ pre, e.state = BatchState.importComplete) ∧
    (∀ e ∈ post, e.state ≠ BatchState.importComplete)

/-- Invariant carried through the reachability proof: either the window is
still the untouched all-zero window of `newBatchSequencer`, or every entry
is neither `Nil` nor `ImportComplete` and the window tiles descending. -/
def WindowInv (l : List Batch) : Prop :=
  (∀ e ∈ l, e = ⟨0, 0, BatchState.nil⟩) ∨
    ((∀ e ∈ l, e.state ≠ BatchState.nil ∧ e.state ≠ BatchState.importComplete) ∧ Tiled l)

/-- Sequencer states reachable from a freshly constructed sequencer by any
interleaving of `update` (with an arbitrary argument) and `sequence`
calls — the literal reading of claim C1. -/
inductive Reachable : BatchSequencer → Prop
  | base (seqLen min max size : Nat) : Reachable (newBatchSequencer seqLen min max size)
  | seq {s : BatchSequencer} : Reachable s → Reachable (s.sequence).1
  | upd {s : BatchSequencer} (b : Batch) : Reachable s → Reachable (s.update b)

/-- Sequencer states reachable from a freshly constructed sequencer by
interleavings of `sequence` and `update` in which every `update` argument
honours the ordering assumption documented in `batchSequencer.update`:
the argument is never a `Nil`-state batch (workers and the importer only
hand back `Importable`, `ErrRetryable` or `ImportComplete` batches), and
when it is `ImportComplete` the completed entries form a front segment of
the window once the argument has replaced its slot range. -/
inductive ReachableOrdered : BatchSequencer → Prop
  | base (seqLen min max size : Nat) : ReachableOrdered (newBatchSequencer seqLen min max size)
  | seq {s : BatchSequencer} : ReachableOrdered s → ReachableOrdered (s.sequence).1
  | upd {s : BatchSequencer} (b : Batch) : ReachableOrdered s →
      b.state ≠ BatchState.nil →
      (b.state = BatchState.importComplete →
        CompletesFirst (s.seq.map fun e => if b.replaces e then b else e)) →
      ReachableOrdered (s.update b)

/-! Basic lemmas about `Batcher.before` and the refill chain. -/

theorem before_endSlot (r : Batcher) (u : Nat) : (r.before u).endSlot = u := by
  unfold Batcher.before
  split
  · rfl
  · split <;> rfl

theorem before_state (r : Batcher) (u : Nat) :
    (r.before u).state = BatchState.init ∨ (r.before u).state = BatchState.endSequence := by
  unfold Batcher.before
  split
  · exact Or.inr rfl
  · split
    · exact Or.inl rfl
    · exact Or.inl rfl

theorem beforeBatch_endSlot (r : Batcher) (b : Batch) : (r.beforeBatch b).endSlot = b.begin :=
  before_endSlot r b.begin

theorem refillChain_chain (r : Batcher) :
    ∀ (k : Nat) (x : Batch),
      List.Chain' (fun a b => a.begin = b.endSlot) (x :: refillChain r x k) := by
  intro k
  induction k with
  | zero => intro x; simp [refillChain]
  | succ n ih =>
    intro x
    simp only [refillChain]
    rw [List.chain'_cons]
    exact ⟨(beforeBatch_endSlot r x).symm, ih (r.beforeBatch x)⟩

theorem refillChain_state (r : Batcher) :
    ∀ (k : Nat) (x e : Batch), e ∈ refillChain r x k →
      e.state = BatchState.init ∨ e.state = BatchState.endSequence := by
  intro k
  induction k with
  | zero => intro x e h; simp [refillChain] at h
  | succ n ih =>
    intro x e h
    simp only [refillChain, List.mem_cons] at h
    cases h with
    | inl h => subst h; exact before_state r x.begin
    | inr h => exact ih (r.beforeBatch x) e h

/-- `getLastD` of a cons ignores the outer default, so appending on the
left does not change it. -/
theorem getLastD_cons_eq (a d : Batch) (l : List Batch) :
    (a :: l).getLastD d = l.getLastD a := by
  cases l with
  | nil => rfl
  | cons b t => rfl

theorem getLastD_append_cons (l₁ : List Batch) (a : Batch) (l₂ : List Batch) (d : Batch) :
    (l₁ ++ a :: l₂).getLastD d = l₂.getLastD a := by
  induction l₁ generalizing d with
  | nil => exact getLastD_cons_eq a d l₂
  | cons x t ih => rw [List.cons_append, getLastD_cons_eq]; exact ih x

/-- The entry written by the conditional replacement in
`batchSequencer.update` keeps the slot range of the entry it overwrites:
`b.replaces` demands range equality. -/
theorem replace_ranges (b e : Batch) :
    (if b.replaces e then b else e).begin = e.begin ∧
      (if b.replaces e then b else e).endSlot = e.endSlot := by
  by_cases h : b.replaces e = true
  · have h' := h
    unfold Batch.replaces at h'
    rw [Bool.and_eq_true, beq_iff_eq, beq_iff_eq] at h'
    simp [h, h'.1, h'.2]
  · simp [h]

theorem tiled_map (l : List Batch) (f : Batch → Batch)
    (hf : ∀ e, (f e).begin = e.begin ∧ (f e).endSlot = e.endSlot)
    (h : Tiled l) : Tiled (l.map f) := by
  unfold Tiled at h ⊢
  rw [List.chain'_map]
  exact h.imp fun a b hab => by rw [(hf a).1, (hf b).2]; exact hab

theorem chain'_replicate_of_rel (R : Batch → Batch → Prop) (a : Batch) (h : R a a) :
    ∀ n, List.Chain' R (List.replicate n a) := by
  intro n
  induction n with
  | zero => simp
  | succ m ih =>
    cases m with
    | zero => simp
    | succ m' =>
      rw [List.replicate_succ, List.replicate_succ, List.chain'_cons]
      rw [List.replicate_succ] at ih
      exact ⟨h, ih⟩

theorem tiled_of_allZero (l : List Batch)
    (h : ∀ e ∈ l, e = (⟨0, 0, BatchState.nil⟩ : Batch)) : Tiled l := by
  induction l with
  | nil => simp [Tiled]
  | cons a t ih =>
    cases t with
    | nil => simp [Tiled]
    | cons b t' =>
      unfold Tiled
      rw [List.chain'_cons]
      constructor
      · rw [h a (by simp), h b (by simp)]
      · exact ih fun e he => h e (List.mem_cons_of_mem a he)

/-! Decomposition of `updateSeq` when the completed entries of the
post-replacement window form a front segment. -/

theorem updateSeq_eq (r : Batcher) (b : Batch) (l : List Batch) (pre post : List Batch)
    (hsplit : l.map (fun e => if b.replaces e then b else e) = pre ++ post)
    (hpre : ∀ e ∈ pre, e.state = BatchState.importComplete)
    (hpost : ∀ e ∈ post, e.state ≠ BatchState.importComplete) :
    updateSeq r b l =
      post ++ refillChain r ((pre ++ post).getLastD ⟨0, 0, BatchState.nil⟩) pre.length := by
  have hfilter :
      (pre ++ post).filter (fun e => !(e.state == BatchState.importComplete)) = post := by
    rw [List.filter_append]
    rw [List.filter_eq_nil_iff.mpr, List.filter_eq_self.mpr]
    · simp
    · intro e he
      simp only [Bool.not_eq_true', beq_eq_false_iff_ne, ne_eq]
      exact hpost e he
    · intro e he
      simp [hpre e he]
  have hcount :
      (pre ++ post).countP (fun e => e.state == BatchState.importComplete) = pre.length := by
    rw [List.countP_append]
    have h1 : pre.countP (fun e => e.state == BatchState.importComplete) = pre.length :=
      List.countP_eq_length.mpr fun e he => by simp [hpre e he]
    have h2 : post.countP (fun e => e.state == BatchState.importComplete) = 0 := by
      rw [List.countP_eq_zero]
      intro e he
      simp only [beq_iff_eq]
      exact hpost e he
    rw [h1, h2, Nat.add_zero]
  simp only [updateSeq]
  rw [hsplit, hfilter, hcount]

/-- Appending the refill chain started from the window's last entry keeps
the descending tiling. -/
theorem tiled_append_refill (r : Batcher) (k : Nat) :
    ∀ (l : List Batch) (d : Batch), Tiled l →
      Tiled (l ++ refillChain r (l.getLastD d) k) := by
  intro l
  induction l with
  | nil =>
    intro d _
    exact (refillChain_chain r k d).tail
  | cons a t ih =>
    intro d h
    unfold Tiled at h ⊢
    cases t with
    | nil => simpa using refillChain_chain r k a
    | cons b t' =>
      rw [getLastD_cons_eq]
      rw [List.cons_append, List.cons_append, List.chain'_cons]
      refine ⟨(List.chain'_cons.mp h).1, ?_⟩
      exact ih a (List.Chain'.tail h)

/-- When neither the argument nor any window entry is `ImportComplete`,
`update` reduces to the replacement pass: nothing is compacted and nothing
is refilled. -/
theorem updateSeq_no_complete (r : Batcher) (b : Batch) (l : List Batch)
    (hb : b.state ≠ BatchState.importComplete)
    (hl : ∀ e ∈ l, e.state ≠ BatchState.importComplete) :
    updateSeq r b l = l.map fun e => if b.replaces e then b else e := by
  have hall : ∀ e ∈ l.map (fun e => if b.replaces e then b else e),
      e.state ≠ BatchState.importComplete := by
    intro e he
    rcases List.mem_map.mp he with ⟨x, hx, rfl⟩
    by_cases hr : b.replaces x = true
    · simpa [hr] using hb
    · simpa [hr] using hl x hx
  have := updateSeq_eq r b l [] (l.map fun e => if b.replaces e then b else e)
    (by simp) (by simp) hall
  simpa [refillChain] using this

/-! ### Claim C2 -/

/-- Claim C2 is contradicted by the code: on the window
`[{5,5,EndSequence}, {0,5,Init}]` the scan of `sequence()` appends the
`EndSequence` batch (output was empty) and then, because Go's `break`
inside a `switch` exits only the switch, *continues*, sequencing and
appending the following `Init` entry.  The call returns a two-element
list where the claim requires exactly the one-element `[EndSequence]`
list and no processing of later entries. -/
theorem C2_endSequence_scan_continues :
    ((⟨⟨5, 100, 64⟩, [⟨5, 5, BatchState.endSequence⟩, ⟨0, 5, BatchState.init⟩]⟩ :
        BatchSequencer).sequence).2 =
      Except.ok [⟨5, 5, BatchState.endSequence⟩, ⟨0, 5, BatchState.sequenced⟩] := by
  rfl

/-! ### Claim C3 -/

/-- Claim C3 as stated is false on the code: with `min = 2^64 - 2`,
`size = 5` the `uint64` sum `r.size + r.min` wraps to `3`, so for
`upTo = 2^64 - 1` the guard takes the subtraction branch and `begin`
becomes `upTo - size = 2^64 - 6`, strictly below `min`, whereas the
claim's formula `max(min, upTo - size)` yields `2^64 - 2`. -/
theorem C3_before_cex :
    ((⟨2 ^ 64 - 2, 2 ^ 64 - 1, 5⟩ : Batcher).before (2 ^ 64 - 1)).begin ≠
      max (2 ^ 64 - 2) ((2 ^ 64 - 1) - 5) := by
  decide

/-- Claim C3, amended: provided `r.min + r.size` does not overflow
`uint64` (which rules out the wrap in the guard `upTo > r.size + r.min`),
`before(upTo)` returns the `EndSequence` sentinel `{upTo, upTo}` when
`upTo ≤ min`, and otherwise a batch with `end = upTo` and
`begin = max(min, upTo - size)` computed without unsigned underflow. -/
theorem C3_before_amended (r : Batcher) (upTo : Nat)
    (hr : r.min + r.size < U64) (hu : upTo < U64) :
    (upTo ≤ r.min → r.before upTo = ⟨upTo, upTo, BatchState.endSequence⟩) ∧
    (r.min < upTo → r.before upTo = ⟨max r.min (upTo - r.size), upTo, BatchState.init⟩) := by
  have hU : U64 = 18446744073709551616 := by norm_num [U64]
  constructor
  · intro h
    unfold Batcher.before
    rw [if_pos h]
  · intro h
    unfold Batcher.before
    rw [if_neg (by omega)]
    have hadd : add64 r.size r.min = r.size + r.min := by
      unfold add64
      exact Nat.mod_eq_of_lt (by omega)
    by_cases hc : add64 r.size r.min < upTo
    · rw [if_pos hc]
      rw [hadd] at hc
      have hs : sub64 upTo r.size = upTo - r.size := by
        unfold sub64
        have h1 : r.size % U64 = r.size := Nat.mod_eq_of_lt (by omega)
        rw [h1, hU]
        rw [hU] at hu
        omega
      have hm : max r.min (upTo - r.size) = upTo - r.size := by omega
      rw [hs, hm]
    · rw [if_neg hc]
      rw [hadd] at hc
      have hm : max r.min (upTo - r.size) = r.min := by omega
      rw [hm]

/-- Witness for C3 at the spec's scenario S2 values: `min = 0`,
`size = 64`, `upTo = 100` yields the truncated batch `[36, 100)`. -/
theorem C3_before_witness :
    (⟨0, 100, 64⟩ : Batcher).before 100 = ⟨36, 100, BatchState.init⟩ := by
  have h := (C3_before_amended ⟨0, 100, 64⟩ 100 (by norm_num [U64]) (by norm_num [U64])).2
    (by norm_num)
  simpa using h

/-! ### Claim C4 -/

/-- Claim C4: after `update(b)` returns (on a nonempty window — a Go call
with an empty window panics), no window entry is in state
`ImportComplete`: completed entries are dropped by the compaction pass and
the freed tail slots are refilled with fresh batches from the batcher,
which `before` only ever emits in state `Init` or `EndSequence`. -/
theorem C4_no_importComplete_after_update (c : BatchSequencer) (b : Batch)
    (_hlen : 0 < c.seq.length) :
    ∀ e ∈ (c.update b).seq, e.state ≠ BatchState.importComplete := by
  intro e he
  simp only [BatchSequencer.update, updateSeq, List.mem_append] at he
  cases he with
  | inl h =>
    have := List.of_mem_filter h
    simpa using this
  | inr h =>
    rcases refillChain_state c.batcher _ _ e h with h1 | h1 <;> simp [h1]

/-- Witness for C4: completing the single batch of a one-slot window
replaces it by the `EndSequence` sentinel. -/
theorem C4_update_witness :
    0 < (newBatchSequencer 1 0 200 100).seq.length ∧
      (⟨0, 0, BatchState.endSequence⟩ : Batch).state ≠ BatchState.importComplete :=
  ⟨by decide,
    C4_no_importComplete_after_update (newBatchSequencer 1 0 200 100)
      ⟨0, 0, BatchState.importComplete⟩ (by decide) ⟨0, 0, BatchState.endSequence⟩ (by decide)⟩

/-! ### Claim C6 -/

/-- Claim C6: `moveMinimum(m)` returns `ErrCannotDecreaseMinimum` exactly
when `m` is strictly below the current minimum, leaving the sequencer
(batcher and window) unchanged in that case; otherwise it succeeds and
sets the minimum to `m`. -/
theorem C6_moveMinimum_spec (c : BatchSequencer) (m : Nat) :
    (m < c.batcher.min →
      c.moveMinimum m = (some SeqErr.cannotDecreaseMinimum, c)) ∧
    (c.batcher.min ≤ m →
      c.moveMinimum m = (none, ⟨⟨m, c.batcher.max, c.batcher.size⟩, c.seq⟩)) := by
  constructor
  · intro h
    unfold BatchSequencer.moveMinimum
    rw [if_pos h]
  · intro h
    unfold BatchSequencer.moveMinimum
    rw [if_neg (Nat.not_lt.mpr h)]

/-- Witness for C6: lowering the minimum from 5 to 3 errors and returns
the untouched state. -/
theorem C6_moveMinimum_witness :
    (⟨⟨5, 10, 2⟩, []⟩ : BatchSequencer).moveMinimum 3 =
      (some SeqErr.cannotDecreaseMinimum, (⟨⟨5, 10, 2⟩, []⟩ : BatchSequencer)) :=
  (C6_moveMinimum_spec ⟨⟨5, 10, 2⟩, []⟩ 3).1 (by decide)

/-! ### Claim C9 -/

/-- Claim C9 as stated (for every batch and every sequencer state) is
false on the code: on the window `[{100,200,ImportComplete}]` with
`min = 0`, `size = 100`, the first `update({0,100,Sequenced})` compacts
the completed entry and refills the slot with the fresh batch
`{0,100,Init}`; the second `update` with the same argument now replaces
that fresh batch (same range) and flips its state to `Sequenced`, so the
two states differ. -/
theorem C9_update_idem_cex :
    ((⟨⟨0, 200, 100⟩, [⟨100, 200, BatchState.importComplete⟩]⟩ : BatchSequencer).update
        ⟨0, 100, BatchState.sequenced⟩).update ⟨0, 100, BatchState.sequenced⟩ ≠
      (⟨⟨0, 200, 100⟩, [⟨100, 200, BatchState.importComplete⟩]⟩ : BatchSequencer).update
        ⟨0, 100, BatchState.sequenced⟩ := by
  decide

/-- Claim C9, amended: `update(b); update(b)` is equivalent to a single
`update(b)` provided `b` is not an `ImportComplete` batch and no window
entry is `ImportComplete` (both hold for every state at rest between
driver iterations: windows never retain completed entries, see C4).
Without these restrictions the compaction/refill step of the first call
can manufacture a fresh batch with `b`'s slot range which the second call
then replaces, as in the counterexample. -/
theorem C9_update_idem_amended (c : BatchSequencer) (b : Batch)
    (hb : b.state ≠ BatchState.importComplete)
    (hc : ∀ e ∈ c.seq, e.state ≠ BatchState.importComplete)
    (_hlen : 0 < c.seq.length) :
    (c.update b).update b = c.update b := by
  have h1 : updateSeq c.batcher b c.seq = c.seq.map fun e => if b.replaces e then b else e :=
    updateSeq_no_complete c.batcher b c.seq hb hc
  have h2 : ∀ e ∈ updateSeq c.batcher b c.seq, e.state ≠ BatchState.importComplete := by
    rw [h1]
    intro e he
    rcases List.mem_map.mp he with ⟨x, hx, rfl⟩
    by_cases hr : b.replaces x = true
    · simpa [hr] using hb
    · simpa [hr] using hc x hx
  have key : updateSeq c.batcher b (updateSeq c.batcher b c.seq) =
      updateSeq c.batcher b c.seq := by
    rw [updateSeq_no_complete c.batcher b _ hb h2, h1, List.map_map]
    apply List.map_congr_left
    intro e _
    simp only [Function.comp]
    have hbb : b.replaces b = true := by simp [Batch.replaces]
    by_cases hr : b.replaces e = true
    · simp [hr, hbb]
    · simp [hr]
  show (⟨c.batcher, updateSeq c.batcher b (updateSeq c.batcher b c.seq)⟩ : BatchSequencer) =
    ⟨c.batcher, updateSeq c.batcher b c.seq⟩
  rw [key]

/-- Witness for the amended C9: a no-complete window and a non-complete
argument. -/
theorem C9_update_idem_witness :
    ((⟨⟨0, 200, 100⟩, [⟨100, 200, BatchState.sequenced⟩]⟩ : BatchSequencer).update
        ⟨100, 200, BatchState.importable⟩).update ⟨100, 200, BatchState.importable⟩ =
      (⟨⟨0, 200, 100⟩, [⟨100, 200, BatchState.sequenced⟩]⟩ : BatchSequencer).update
        ⟨100, 200, BatchState.importable⟩ :=
  C9_update_idem_amended ⟨⟨0, 200, 100⟩, [⟨100, 200, BatchState.sequenced⟩]⟩
    ⟨100, 200, BatchState.importable⟩ (by decide) (by decide) (by decide)

/-! ### Claim C10 -/

/-- Claim C10: a successful `moveMinimum(m)` changes only the batcher's
`min` field: the window (hence every batch in it, with its `begin`, `end`
and state) is unchanged, and the batcher's `max` and `size` are
unchanged. -/
theorem C10_moveMinimum_frame (c : BatchSequencer) (m : Nat) (h : c.batcher.min ≤ m) :
    (c.moveMinimum m).1 = none ∧
      (c.moveMinimum m).2.seq = c.seq ∧
      (c.moveMinimum m).2.batcher.max = c.batcher.max ∧
      (c.moveMinimum m).2.batcher.size = c.batcher.size ∧
      (c.moveMinimum m).2.batcher.min = m := by
  unfold BatchSequencer.moveMinimum
  rw [if_neg (Nat.not_lt.mpr h)]
  exact ⟨rfl, rfl, rfl, rfl, rfl⟩

/-- Witness for C10. -/
theorem C10_moveMinimum_frame_witness :
    ((⟨⟨5, 10, 2⟩, [⟨3, 5, BatchState.sequenced⟩]⟩ : BatchSequencer).moveMinimum 7).1 = none ∧
      ((⟨⟨5, 10, 2⟩, [⟨3, 5, BatchState.sequenced⟩]⟩ :
          BatchSequencer).moveMinimum 7).2.seq = [⟨3, 5, BatchState.sequenced⟩] ∧
      ((⟨⟨5, 10, 2⟩, [⟨3, 5, BatchState.sequenced⟩]⟩ :
          BatchSequencer).moveMinimum 7).2.batcher.max = 10 ∧
      ((⟨⟨5, 10, 2⟩, [⟨3, 5, BatchState.sequenced⟩]⟩ :
          BatchSequencer).moveMinimum 7).2.batcher.size = 2 ∧
      ((⟨⟨5, 10, 2⟩, [⟨3, 5, BatchState.sequenced⟩]⟩ :
          BatchSequencer).moveMinimum 7).2.batcher.min = 7 :=
  C10_moveMinimum_frame ⟨⟨5, 10, 2⟩, [⟨3, 5, BatchState.sequenced⟩]⟩ 7 (by decide)

/-! ### Claim C5 -/

theorem importableLoop_split (l : List Batch) : ∃ t, l = importableLoop l ++ t := by
  induction l with
  | nil => exact ⟨[], rfl⟩
  | cons e rest ih =>
    by_cases h : e.state == BatchState.importable
    · rcases ih with ⟨t, ht⟩
      refine ⟨t, ?_⟩
      simp only [importableLoop, h, if_true, List.cons_append]
      rw [← ht]
    · exact ⟨e :: rest, by simp [importableLoop, h]⟩

theorem importableLoop_states (l : List Batch) :
    ∀ b ∈ importableLoop l, b.state = BatchState.importable := by
  induction l with
  | nil => intro b h; simp [importableLoop] at h
  | cons e rest ih =>
    intro b h
    by_cases he : e.state == BatchState.importable
    · simp only [importableLoop, he, if_true, List.mem_cons] at h
      cases h with
      | inl h => subst h; exact beq_iff_eq.mp he
      | inr h => exact ih b h
    · simp [importableLoop, he] at h

theorem importableLoop_longest (l : List Batch) :
    ∀ k, k < l.length →
      (∀ j, j ≤ k → (l.getD j ⟨0, 0, BatchState.nil⟩).state = BatchState.importable) →
      k < (importableLoop l).length := by
  induction l with
  | nil => intro k hk; simp at hk
  | cons e rest ih =>
    intro k hk hall
    have he : e.state = BatchState.importable := hall 0 (Nat.zero_le k)
    simp only [importableLoop, beq_iff_eq.mpr he, if_true, List.length_cons]
    cases k with
    | zero => exact Nat.succ_pos _
    | succ k' =>
      have : k' < (importableLoop rest).length := by
        apply ih k' (by simpa using hk)
        intro j hj
        exact hall (j + 1) (Nat.succ_le_succ hj)
      exact Nat.succ_lt_succ this

theorem importableLoop_head_not (l : List Batch) :
    0 < l.length →
      (l.getD 0 ⟨0, 0, BatchState.nil⟩).state ≠ BatchState.importable →
      importableLoop l = [] := by
  intro hl h
  cases l with
  | nil => simp at hl
  | cons e rest =>
    have : ¬ (e.state == BatchState.importable) = true := by
      simpa using h
    simp [importableLoop, this]

/-- Claim C5: `importable()` returns exactly the longest front run of the
window whose entries are all in state `Importable`: it is an initial
segment of the window, every returned batch is `Importable`, any position
whose predecessors (itself included) are all `Importable` lies inside the
returned segment, and if the first entry is not `Importable` the result is
empty. -/
theorem C5_importable_longest (c : BatchSequencer) :
    (∃ t, c.seq = c.importable ++ t) ∧
      (∀ b ∈ c.importable, b.state = BatchState.importable) ∧
      (∀ k, k < c.seq.length →
        (∀ j, j ≤ k → (c.seq.getD j ⟨0, 0, BatchState.nil⟩).state = BatchState.importable) →
        k < c.importable.length) ∧
      (0 < c.seq.length →
        (c.seq.getD 0 ⟨0, 0, BatchState.nil⟩).state ≠ BatchState.importable →
        c.importable = []) :=
  ⟨importableLoop_split c.seq, importableLoop_states c.seq,
    importableLoop_longest c.seq, importableLoop_head_not c.seq⟩

/-- Witness for C5 on the window `[{1,2,Importable}, {0,1,Init}]`: the
position-0 batch is inside the returned segment. -/
theorem C5_importable_witness :
    0 < ((⟨⟨0, 2, 1⟩, [⟨1, 2, BatchState.importable⟩, ⟨0, 1, BatchState.init⟩]⟩ :
        BatchSequencer).importable).length :=
  (C5_importable_longest
      ⟨⟨0, 2, 1⟩, [⟨1, 2, BatchState.importable⟩, ⟨0, 1, BatchState.init⟩]⟩).2.2.1 0
    (by decide) (by decide)

/-! ### Claim C7 -/

theorem seqStep_out_states (r : Batcher) :
    ∀ (l : List Batch) (p : Option Batch) (s : List Batch),
      (∀ x ∈ s, x.state = BatchState.sequenced ∨ x.state = BatchState.endSequence) →
      ∀ x ∈ (seqStep r p s l).2,
        x.state = BatchState.sequenced ∨ x.state = BatchState.endSequence := by
  intro l
  induction l with
  | nil => intro p s hs x hx; exact hs x hx
  | cons e rest ih =>
    intro p s hs x hx
    cases he : e.state with
    | init =>
      simp only [seqStep, he] at hx
      refine ih _ _ ?_ x hx
      intro y hy
      rcases List.mem_append.mp hy with hy | hy
      · exact hs y hy
      · rw [List.mem_singleton.mp hy]; exact Or.inl rfl
    | errRetryable =>
      simp only [seqStep, he] at hx
      refine ih _ _ ?_ x hx
      intro y hy
      rcases List.mem_append.mp hy with hy | hy
      · exact hs y hy
      · rw [List.mem_singleton.mp hy]; exact Or.inl rfl
    | nil =>
      simp only [seqStep, he] at hx
      refine ih _ _ ?_ x hx
      intro y hy
      rcases List.mem_append.mp hy with hy | hy
      · exact hs y hy
      · rw [List.mem_singleton.mp hy]; exact Or.inl rfl
    | endSequence =>
      simp only [seqStep, he] at hx
      refine ih _ _ ?_ x hx
      intro y hy
      by_cases he2 : s.isEmpty
      · rw [if_pos he2] at hy
        rcases List.mem_append.mp hy with hy | hy
        · exact hs y hy
        · rw [List.mem_singleton.mp hy]; exact Or.inr he
      · rw [if_neg he2] at hy
        exact hs y hy
    | sequenced =>
      simp only [seqStep, he] at hx
      exact ih _ _ hs x hx
    | inFlight =>
      simp only [seqStep, he] at hx
      exact ih _ _ hs x hx
    | importable =>
      simp only [seqStep, he] at hx
      exact ih _ _ hs x hx
    | importComplete =>
      simp only [seqStep, he] at hx
      exact ih _ _ hs x hx

/-- Claim C7: every batch returned by a successful `sequence()` call is in
state `Sequenced` or `EndSequence`: the `Init`/`ErrRetryable` and `Nil`
arms append batches freshly stamped `Sequenced`, the `EndSequence` arm
appends the sentinel itself, and no other arm appends. -/
theorem C7_sequence_states (c : BatchSequencer) (out : List Batch)
    (h : (c.sequence).2 = Except.ok out) :
    ∀ b ∈ out, b.state = BatchState.sequenced ∨ b.state = BatchState.endSequence := by
  simp only [BatchSequencer.sequence] at h
  by_cases he : (seqStep c.batcher none [] c.seq).2.isEmpty
  · rw [if_pos he] at h
    exact absurd h (by simp)
  · rw [if_neg he] at h
    have hout : (seqStep c.batcher none [] c.seq).2 = out := by
      injection h
    rw [← hout]
    exact seqStep_out_states c.batcher c.seq none [] (by intro y hy; simp at hy)

/-- Witness for C7: sequencing a fresh one-slot window returns the single
batch `[100, 200)` in state `Sequenced`. -/
theorem C7_sequence_witness :
    (⟨100, 200, BatchState.sequenced⟩ : Batch).state = BatchState.sequenced ∨
      (⟨100, 200, BatchState.sequenced⟩ : Batch).state = BatchState.endSequence :=
  C7_sequence_states (newBatchSequencer 1 0 200 100) [⟨100, 200, BatchState.sequenced⟩]
    (by rfl) ⟨100, 200, BatchState.sequenced⟩ (by decide)

/-! ### Claim C8 -/

/-- Claim C8: for every current slot, `MinimumBackfillSlot(current)` is
`max(0, current - offset)` with
`offset = min(MIN_EPOCHS_FOR_BLOCK_REQUESTS, MaxSafeEpoch) * SLOTS_PER_EPOCH`;
in particular it is `0` whenever the offset exceeds `current`, and the
guard `offset > current` prevents unsigned underflow. -/
theorem C8_minimumBackfillSlot (me ms spe cur : Nat) :
    (MinimumBackfillSlot me ms spe cur : Int) =
      max 0 ((cur : Int) - ((min me ms * spe : Nat) : Int)) := by
  have hoe : (if me > ms then ms else me) = min me ms := by
    split_ifs <;> omega
  simp only [MinimumBackfillSlot, epochStart, hoe]
  generalize min me ms * spe = off
  split_ifs with h
  · rw [max_eq_left (by omega)]
    simp
  · rw [max_eq_right (by omega)]
    rw [Nat.cast_sub (by omega)]

/-! ### Claim C1: window tiling -/

/-- On a window without `Nil` entries, the scan of `sequence` only stamps
`Init`/`ErrRetryable` entries as `Sequenced` and leaves the rest alone; in
particular every entry keeps its slot range. -/
theorem seqStep_window_noNil (r : Batcher) :
    ∀ (l : List Batch) (p : Option Batch) (s : List Batch),
      (∀ e ∈ l, e.state ≠ BatchState.nil) →
      (seqStep r p s l).1 = l.map fun e =>
        if e.state = BatchState.init ∨ e.state = BatchState.errRetryable
        then e.withState BatchState.sequenced else e := by
  intro l
  induction l with
  | nil => intro p s _; rfl
  | cons e rest ih =>
    intro p s hn
    have hrest : ∀ x ∈ rest, x.state ≠ BatchState.nil := fun x hx =>
      hn x (List.mem_cons_of_mem e hx)
    cases he : e.state with
    | nil => exact absurd he (hn e (List.mem_cons_self e rest))
    | init =>
      simp only [seqStep, he, List.map_cons]
      rw [ih _ _ hrest]
      simp [he]
    | errRetryable =>
      simp only [seqStep, he, List.map_cons]
      rw [ih _ _ hrest]
      simp [he]
    | sequenced =>
      simp only [seqStep, he, List.map_cons]
      rw [ih _ _ hrest]
      simp [he]
    | inFlight =>
      simp only [seqStep, he, List.map_cons]
      rw [ih _ _ hrest]
      simp [he]
    | importable =>
      simp only [seqStep, he, List.map_cons]
      rw [ih _ _ hrest]
      simp [he]
    | importComplete =>
      simp only [seqStep, he, List.map_cons]
      rw [ih _ _ hrest]
      simp [he]
    | endSequence =>
      simp only [seqStep, he, List.map_cons]
      rw [ih _ _ hrest]
      simp [he]

/-- Running the scan over a run of zero-value `Nil` batches with a known
previous entry produces a descending chain of `Sequenced` batches hanging
off the previous entry. -/
theorem seqStep_nil_run (r : Batcher) :
    ∀ (k : Nat) (p : Batch) (s : List Batch),
      (∀ e ∈ (seqStep r (some p) s
          (List.replicate k (⟨0, 0, BatchState.nil⟩ : Batch))).1,
        e.state = BatchState.sequenced) ∧
      List.Chain' (fun a b => a.begin = b.endSlot)
        (p :: (seqStep r (some p) s
          (List.replicate k (⟨0, 0, BatchState.nil⟩ : Batch))).1) := by
  intro k
  induction k with
  | zero =>
    intro p s
    constructor
    · intro e he; simp [seqStep] at he
    · simp [seqStep]
  | succ n ih =>
    intro p s
    rw [List.replicate_succ]
    simp only [seqStep]
    constructor
    · intro e he
      rcases List.mem_cons.mp he with rfl | he
      · rfl
      · exact (ih ((r.beforeBatch p).withState BatchState.sequenced) _).1 e he
    · rw [List.chain'_cons]
      constructor
      · exact (beforeBatch_endSlot r p).symm
      · exact (ih ((r.beforeBatch p).withState BatchState.sequenced) _).2

/-- Scanning a fresh (all zero-value `Nil`) nonempty window produces a
fully `Sequenced`, descending-tiled window. -/
theorem seqStep_all_nil (r : Batcher) (k : Nat) (s : List Batch) (hk : 0 < k) :
    (∀ e ∈ (seqStep r none s (List.replicate k (⟨0, 0, BatchState.nil⟩ : Batch))).1,
        e.state = BatchState.sequenced) ∧
      Tiled (seqStep r none s (List.replicate k (⟨0, 0, BatchState.nil⟩ : Batch))).1 := by
  cases k with
  | zero => exact absurd hk (by simp)
  | succ n =>
    rw [List.replicate_succ]
    simp only [seqStep]
    constructor
    · intro e he
      rcases List.mem_cons.mp he with rfl | he
      · rfl
      · exact (seqStep_nil_run r n ((r.before r.max).withState BatchState.sequenced) _).1 e he
    · exact (seqStep_nil_run r n ((r.before r.max).withState BatchState.sequenced) _).2

/-- `sequence` preserves the window invariant. -/
theorem windowInv_sequence (c : BatchSequencer) (h : WindowInv c.seq) :
    WindowInv ((c.sequence).1.seq) := by
  have hwin : (c.sequence).1.seq = (seqStep c.batcher none [] c.seq).1 := rfl
  cases h with
  | inl hall =>
    have hrep : c.seq = List.replicate c.seq.length (⟨0, 0, BatchState.nil⟩ : Batch) :=
      List.eq_replicate_of_mem hall
    cases hlen : c.seq.length with
    | zero =>
      right
      have hnil : c.seq = [] := List.length_eq_zero.mp hlen
      constructor
      · intro e he
        rw [hwin, hnil] at he
        simp [seqStep] at he
      · rw [hwin, hnil]
        simp [seqStep, Tiled]
    | succ n =>
      right
      have h2 := seqStep_all_nil c.batcher c.seq.length [] (by omega)
      rw [← hrep] at h2
      rw [hwin]
      refine ⟨fun e he => ?_, h2.2⟩
      rw [h2.1 e he]
      simp
  | inr hinv =>
    rcases hinv with ⟨hst, htl⟩
    right
    rw [hwin, seqStep_window_noNil c.batcher c.seq none [] fun e he => (hst e he).1]
    constructor
    · intro e he
      rcases List.mem_map.mp he with ⟨x, hx, rfl⟩
      by_cases hc : x.state = BatchState.init ∨ x.state = BatchState.errRetryable
      · simp [hc, Batch.withState]
      · rw [if_neg hc]
        exact hst x hx
    · apply tiled_map
      · intro e
        by_cases hc : e.state = BatchState.init ∨ e.state = BatchState.errRetryable
        · simp [hc, Batch.withState]
        · simp [hc]
      · exact htl

/-- Core preservation lemma for `update`: if, after the replacement pass,
the window has no `Nil` entries, still tiles, and its completed entries
form a front segment, then the compaction/refill result has no `Nil` and
no `ImportComplete` entries and still tiles. -/
theorem updateSeq_window_inv (r : Batcher) (b : Batch) (l : List Batch)
    (hnil : ∀ e ∈ l.map (fun e => if b.replaces e then b else e), e.state ≠ BatchState.nil)
    (ht : Tiled (l.map fun e => if b.replaces e then b else e))
    (hcf : CompletesFirst (l.map fun e => if b.replaces e then b else e)) :
    (∀ e ∈ updateSeq r b l,
        e.state ≠ BatchState.nil ∧ e.state ≠ BatchState.importComplete) ∧
      Tiled (updateSeq r b l) := by
  rcases hcf with ⟨pre, post, hsplit, hpre, hpost⟩
  constructor
  · intro e he
    rw [updateSeq_eq r b l pre post hsplit hpre hpost] at he
    rcases List.mem_append.mp he with he | he
    · refine ⟨?_, hpost e he⟩
      apply hnil
      rw [hsplit]
      exact List.mem_append_right pre he
    · rcases refillChain_state r _ _ e he with h1 | h1 <;> simp [h1]
  · rw [updateSeq_eq r b l pre post hsplit hpre hpost]
    cases post with
    | nil =>
      simp only [List.append_nil, List.nil_append]
      exact (refillChain_chain r pre.length _).tail
    | cons q qs =>
      rw [getLastD_append_cons]
      have h2 : Tiled (q :: qs) := by
        rw [hsplit] at ht
        unfold Tiled at ht ⊢
        exact (List.chain'_append.mp ht).2.1
      have h3 := tiled_append_refill r pre.length (q :: qs) ⟨0, 0, BatchState.nil⟩ h2
      rw [getLastD_cons_eq] at h3
      exact h3

/-- `update` preserves the window invariant when the argument is not a
`Nil` batch and respects the completion-order assumption. -/
theorem windowInv_update (c : BatchSequencer) (b : Batch)
    (hb : b.state ≠ BatchState.nil)
    (hcf : b.state = BatchState.importComplete →
      CompletesFirst (c.seq.map fun e => if b.replaces e then b else e))
    (h : WindowInv c.seq) : WindowInv ((c.update b).seq) := by
  have hupd : (c.update b).seq = updateSeq c.batcher b c.seq := rfl
  cases h with
  | inr hinv =>
    rcases hinv with ⟨hst, htl⟩
    right
    rw [hupd]
    apply updateSeq_window_inv
    · intro e he
      rcases List.mem_map.mp he with ⟨x, hx, rfl⟩
      by_cases hr : b.replaces x = true
      · simpa [hr] using hb
      · simpa [hr] using (hst x hx).1
    · apply tiled_map
      · exact replace_ranges b
      · exact htl
    · by_cases hbc : b.state = BatchState.importComplete
      · exact hcf hbc
      · refine ⟨[], _, rfl, by simp, ?_⟩
        intro e he
        rcases List.mem_map.mp he with ⟨x, hx, rfl⟩
        by_cases hr : b.replaces x = true
        · simpa [hr] using hbc
        · simpa [hr] using (hst x hx).2
  | inl hall =>
    by_cases hr : b.replaces ⟨0, 0, BatchState.nil⟩ = true
    · have hrange : b.begin = 0 ∧ b.endSlot = 0 := by
        unfold Batch.replaces at hr
        rw [Bool.and_eq_true, beq_iff_eq, beq_iff_eq] at hr
        exact hr
      have hmap : c.seq.map (fun e => if b.replaces e then b else e) =
          List.replicate c.seq.length b := by
        have hlen : (c.seq.map fun e => if b.replaces e then b else e).length =
            c.seq.length := List.length_map c.seq _
        rw [← hlen]
        apply List.eq_replicate_of_mem
        intro y hy
        rcases List.mem_map.mp hy with ⟨x, hx, rfl⟩
        rw [hall x hx]
        simp [hr]
      right
      rw [hupd]
      apply updateSeq_window_inv
      · rw [hmap]
        intro e he
        rw [List.eq_of_mem_replicate he]
        exact hb
      · rw [hmap]
        exact chain'_replicate_of_rel _ b (by rw [hrange.1, hrange.2]) _
      · by_cases hbc : b.state = BatchState.importComplete
        · exact hcf hbc
        · rw [hmap]
          refine ⟨[], _, rfl, by simp, ?_⟩
          intro e he
          rw [List.eq_of_mem_replicate he]
          exact hbc
    · left
      have hmap : c.seq.map (fun e => if b.replaces e then b else e) = c.seq := by
        have hpt : ∀ e ∈ c.seq, (if b.replaces e then b else e) = id e := by
          intro e he
          rw [hall e he]
          simp [hr]
        rw [List.map_congr_left hpt, List.map_id]
      have hupd2 : updateSeq c.batcher b c.seq = c.seq := by
        have := updateSeq_eq c.batcher b c.seq [] c.seq
          (by simpa using hmap) (by simp)
          (fun e he => by rw [hall e he]; simp)
        simpa [refillChain] using this
      intro e he
      rw [hupd, hupd2] at he
      exact hall e he

/-- The window invariant holds in every state reachable under the
completion-order discipline. -/
theorem windowInv_reachableOrdered (s : BatchSequencer) (h : ReachableOrdered s) :
    WindowInv s.seq := by
  induction h with
  | base seqLen mn mx sz =>
    left
    intro e he
    exact List.eq_of_mem_replicate he
  | seq _ ih => exact windowInv_sequence _ ih
  | upd b _ hb hcf ih => exact windowInv_update _ b hb hcf ih

/-- Claim C1 as stated is false on the code: starting from
`newBatchSequencer(3, 0, 300, 100)`, one `sequence()` call builds the
tiled window `[[200,300) [100,200) [0,100)]`, and a single `update` with
the out-of-order completed batch `{100,200,ImportComplete}` (the window's
middle entry, completed before the higher-slot entry) compacts the middle
of the window, yielding `[[200,300) [0,100) [0,0)]` in which
`seq[0].begin = 200 ≠ 100 = seq[1].end`. -/
theorem C1_tiling_cex : ¬ ∀ s : BatchSequencer, Reachable s → Tiled s.seq := by
  intro hclaim
  have hreach : Reachable (((newBatchSequencer 3 0 300 100).sequence).1.update
      ⟨100, 200, BatchState.importComplete⟩) :=
    Reachable.upd ⟨100, 200, BatchState.importComplete⟩
      (Reachable.seq (Reachable.base 3 0 300 100))
  exact absurd (hclaim _ hreach) (by decide)

/-- Claim C1, amended with the ordering assumption the code itself
documents ("Assumes invariant that batches complete and update is called
in order"): in every sequencer state reachable from a freshly constructed
sequencer by interleavings of `sequence` and `update` whose `update`
arguments are never `Nil`-state batches and, when `ImportComplete`, leave
the completed entries as a front segment of the window, adjacent window
entries tile descending: `seq[i].begin = seq[i+1].end`. -/
theorem C1_tiling_amended (s : BatchSequencer) (h : ReachableOrdered s) : Tiled s.seq := by
  rcases windowInv_reachableOrdered s h with hall | hinv
  · exact tiled_of_allZero s.seq hall
  · exact hinv.2

/-- Witness for the amended C1: the window after the first `sequence()`
call on a fresh three-slot sequencer tiles descending. -/
theorem C1_tiling_witness : Tiled ((newBatchSequencer 3 0 300 100).sequence).1.seq :=
  C1_tiling_amended _ (ReachableOrdered.seq (ReachableOrdered.base 3 0 300 100))

end Backfill
